import Mathlib

/-!
Verification of the retrieval ground-truth relation model of the Ko-MM-VQA
repository (`src/komm_vqa/app`).

The embedding covers:
* `RelationRecord` — the flat persisted row `(group_index, group_order, image_chunk_id)`
  read and written by the pages (the `query_id` column is fixed throughout a decode
  call and therefore omitted).
* the decode-side logic of `pages/3_Data_Browser.py` (Queries tab): building the
  `groups` dict keyed by `group_index` and displaying groups in `sorted(groups.keys())`
  order;
* the classification logic of `pages/2_QA_Creation.py` (Recent Queries block) and of
  `pages/3_Data_Browser.py` (Statistics tab, query-distribution counter);
* the ground-truth construction dispatch of `create_query_with_retrieval_gt`
  (`pages/2_QA_Creation.py`), whose record-producing callees (`image`, `or_all`,
  `and_all`, `service.add_retrieval_gt`) live in an external library and are modelled
  from the spec;
* `QueryFormData.is_valid` of `components/query_form.py`.
-/

namespace KoMMVQA

/-- A persisted retrieval-relation row for one query, as read by
`uow.retrieval_relations.get_by_query_id`: fields `group_index`, `group_order`
and `image_chunk_id` (`3_Data_Browser.py`, lines 89–93). -/
structure RelationRecord where
  group_index : Nat
  group_order : Nat
  image_chunk_id : String
  deriving DecidableEq, Repr

/-- One step of the dict-building loop of `3_Data_Browser.py` (lines 86–93):
`if rel.group_index not in groups: groups[rel.group_index] = []` followed by
`groups[rel.group_index].append(rel)`.  The Python `dict[int, list]` is modelled
as an association list in key-insertion order with unique keys. -/
def addRecord (groups : List (Nat × List RelationRecord)) (r : RelationRecord) :
    List (Nat × List RelationRecord) :=
  if groups.any (fun p => p.1 == r.group_index) then
    groups.map (fun p => if p.1 == r.group_index then (p.1, p.2 ++ [r]) else p)
  else
    groups ++ [(r.group_index, [r])]

/-- The `groups` dict built from the relations of one query
(`3_Data_Browser.py`, lines 85–93): fold of `addRecord` over the records in
storage-return order, starting from the empty dict. -/
def relationGroups (relations : List RelationRecord) : List (Nat × List RelationRecord) :=
  relations.foldl addRecord []

/-- Insert an entry into an association list that is kept sorted by key. -/
def insertSorted (x : Nat × List RelationRecord) :
    List (Nat × List RelationRecord) → List (Nat × List RelationRecord)
  | [] => [x]
  | y :: ys => if x.1 ≤ y.1 then x :: y :: ys else y :: insertSorted x ys

/-- Sort an association list by key (insertion sort).  Models the display
iteration `for group_idx in sorted(groups.keys())` of `3_Data_Browser.py`
(line 158); since the dict's keys are unique, any sort by key yields the same
sequence of entries. -/
def sortByKey (l : List (Nat × List RelationRecord)) : List (Nat × List RelationRecord) :=
  l.foldr insertSorted []

/-- The groups of one query in display order: the dict of `relationGroups`
iterated over `sorted(groups.keys())` (`3_Data_Browser.py`, lines 155–159). -/
def browserGroups (relations : List RelationRecord) : List (Nat × List RelationRecord) :=
  sortByKey (relationGroups relations)

/-- The decoded ordered form shown by the Queries tab: for each group in
display order, the `image_chunk_id`s of its records in dict-append order
(`3_Data_Browser.py`, lines 158–174). -/
def browserDecode (relations : List RelationRecord) : List (List String) :=
  (browserGroups relations).map (fun p => p.2.map (fun r => r.image_chunk_id))

/-- Spec error taxonomy for `decode` (§7).  The source raises neither as an
exception: `EmptyGroundTruth` corresponds to the code's dedicated empty
branches (`relation_type = None` in `2_QA_Creation.py` lines 175–176 and the
`No retrieval ground truth` branch of `3_Data_Browser.py` lines 181–182), and
nothing in the source ever produces the `malformedRecords` outcome. -/
inductive DecodeError where
  | emptyGroundTruth
  | malformedRecords
  deriving DecidableEq, Repr

/-- Decode as the repository performs it: an empty record collection is routed
to the distinguished empty outcome (`EmptyGroundTruth`), any non-empty
collection is partitioned by `group_index` and displayed with the groups sorted
by `group_index` (`3_Data_Browser.py`, lines 85–93 and 155–182).  No contiguity
check of any kind is performed. -/
def decode (relations : List RelationRecord) : Except DecodeError (List (List String)) :=
  match relations with
  | [] => .error .emptyGroundTruth
  | _ => .ok (browserDecode relations)

/-- Number of distinct `group_index` values among the records:
`group_indices = {r.group_index for r in relations}` then `len(group_indices)`
(`2_QA_Creation.py` line 168, `3_Data_Browser.py` line 225). -/
def numGroups (relations : List RelationRecord) : Nat :=
  ((relations.map (fun r => r.group_index)).dedup).length

/-- The Recent-Queries classification of `2_QA_Creation.py` (lines 168–176). -/
def relationType (relations : List RelationRecord) : Option String :=
  if numGroups relations > 1 then some "AND (multi-hop)"
  else if relations.length > 1 then some "OR"
  else if relations.length = 1 then some "Single"
  else none

/-- The three buckets of the Statistics query-distribution counter
(`3_Data_Browser.py`, lines 218–231). -/
inductive QueryClass where
  | singleHop
  | orQueries
  | multiHop
  deriving DecidableEq, Repr

/-- The bucket the Statistics tab assigns to one query's records
(`3_Data_Browser.py`, lines 222–231): queries with no relations are skipped
(`if relations:`), otherwise `multi_hop` when more than one distinct
`group_index`, else `or_queries` when more than one record, else `single_hop`. -/
def statBucket (relations : List RelationRecord) : Option QueryClass :=
  if relations.isEmpty then none
  else if numGroups relations > 1 then some .multiHop
  else if relations.length > 1 then some .orQueries
  else some .singleHop

/-- Modelled from the spec: the `GroundTruthExpression` of §3.  The concrete
expression values are built in `src` by the external library constructors
`image`, `or_all` and `and_all` (`autorag_research.orm.models.retrieval_gt`),
which are not part of this repository; the spec's two-level structure is the
model.  `single ref`, `or refs` and `and groups` are §3's `Single`, `Or` and
`And`. -/
inductive GroundTruthExpression where
  | single (ref : String)
  | orOf (refs : List String)
  | andOf (groups : List (List String))
  deriving DecidableEq, Repr

/-- The ordered groups view of an expression: `Single` is one group of one
item, `Or` one group, `And` the group list (§3: `Single` and `Or` are the
one-group degenerate cases of `And`). -/
def toGroups : GroundTruthExpression → List (List String)
  | .single ref => [[ref]]
  | .orOf refs => [refs]
  | .andOf groups => groups

/-- Total number of evidence references in an ordered group list. -/
def totalRefs (groups : List (List String)) : Nat :=
  (groups.map List.length).sum

/-- Modelled from the spec: the records emitted for an ordered group list
(§4 `encode` behavior; the emitting code is `service.add_retrieval_gt` of the
external library, not part of this repository): for the group at position `gi`
and the ref at position `oi` within it, the record
`(group_index = gi, group_order = oi, ref)`. -/
def encodeList (groups : List (List String)) : List RelationRecord :=
  groups.enum.flatMap (fun p => (p.2.enum).map (fun q => ⟨p.1, q.1, q.2⟩))

/-- Spec error for `encode` (§7): malformed input, empty group or empty
expression. -/
inductive EncodeError where
  | invalidExpression
  deriving DecidableEq, Repr

/-- Modelled from the spec: `encode` of §4 (the emitting code lives in the
external library).  Fails with `InvalidExpression` if any group is empty or the
expression holds zero evidence references; otherwise emits the records of
`encodeList`. -/
def encode (e : GroundTruthExpression) : Except EncodeError (List RelationRecord) :=
  if (toGroups e).any List.isEmpty || totalRefs (toGroups e) == 0 then
    .error .invalidExpression
  else .ok (encodeList (toGroups e))

/-- The ground-truth construction dispatch of `create_query_with_retrieval_gt`
(`2_QA_Creation.py`, lines 61–68): a single selected image chunk is wrapped
with `image(...)` alone (the `Single` form) regardless of `relation_type`;
otherwise `or_all` builds one OR-group of all ids and `and_all` one AND-group
of size 1 per id (§3 lifecycle: "each item is its own AND-group of size 1"). -/
def buildGt (image_chunk_ids : List String) (relation_type : String) :
    GroundTruthExpression :=
  if image_chunk_ids.length = 1 then .single image_chunk_ids.headI
  else if relation_type == "or" then .orOf image_chunk_ids
  else .andOf (image_chunk_ids.map (fun r => [r]))

example : encode (.single "a") = .ok [⟨0, 0, "a"⟩] := rfl

example : encode (.orOf ["a", "b", "c"]) = .ok [⟨0, 0, "a"⟩, ⟨0, 1, "b"⟩, ⟨0, 2, "c"⟩] := rfl

example : encode (.andOf [["a"], ["b", "c"]]) = .ok [⟨0, 0, "a"⟩, ⟨1, 0, "b"⟩, ⟨1, 1, "c"⟩] := rfl

example : encode (.andOf [[]]) = .error .invalidExpression := rfl

example : encode (.andOf []) = .error .invalidExpression := rfl

example : buildGt ["a"] "and" = .single "a" := rfl

/-- The records emitted for one group: group position `n`, items enumerated
from 0 in input order. -/
def groupBlock (n : Nat) (g : List String) : List RelationRecord :=
  g.enum.map (fun q => ⟨n, q.1, q.2⟩)

/-- `encodeList` unrolled group by group, for reasoning by induction. -/
def encodeFrom (n : Nat) : List (List String) → List RelationRecord
  | [] => []
  | g :: gs => groupBlock n g ++ encodeFrom (n + 1) gs

/-- The dict obtained from decoding an encoded group list: one entry per group,
in group order. -/
def expectedGroups (n : Nat) : List (List String) → List (Nat × List RelationRecord)
  | [] => []
  | g :: gs => (n, groupBlock n g) :: expectedGroups (n + 1) gs

theorem encodeFrom_eq (gs : List (List String)) :
    ∀ n, (List.enumFrom n gs).flatMap
        (fun p => (p.2.enum).map (fun q => ⟨p.1, q.1, q.2⟩)) = encodeFrom n gs := by
  induction gs with
  | nil => intro n; rfl
  | cons g gs ih =>
    intro n
    rw [List.enumFrom_cons, List.flatMap_cons, encodeFrom, ih (n + 1)]
    rfl

theorem encodeList_eq_encodeFrom (gs : List (List String)) :
    encodeList gs = encodeFrom 0 gs :=
  encodeFrom_eq gs 0

theorem group_index_of_mem_groupBlock {n : Nat} {g : List String} {r : RelationRecord}
    (h : r ∈ groupBlock n g) : r.group_index = n := by
  simp only [groupBlock, List.mem_map] at h
  obtain ⟨q, _, hq⟩ := h
  rw [← hq]

theorem groupBlock_ne_nil {n : Nat} {g : List String} (h : g ≠ []) :
    groupBlock n g ≠ [] := by
  simp only [groupBlock, ne_eq, List.map_eq_nil_iff, List.enum_eq_nil]
  exact h

theorem groupBlock_ids (n : Nat) (g : List String) :
    (groupBlock n g).map (fun r => r.image_chunk_id) = g := by
  rw [groupBlock, List.map_map]
  exact List.enum_map_snd g

theorem key_le_of_mem_expectedGroups :
    ∀ (gs : List (List String)) (n : Nat) (p : Nat × List RelationRecord),
      p ∈ expectedGroups n gs → n ≤ p.1 := by
  intro gs
  induction gs with
  | nil => intro n p hp; cases hp
  | cons g gs ih =>
    intro n p hp
    rw [expectedGroups, List.mem_cons] at hp
    rcases hp with hp | hp
    · rw [hp]
    · exact Nat.le_of_succ_le (ih (n + 1) p hp)

theorem addRecord_of_not_mem (groups : List (Nat × List RelationRecord))
    (r : RelationRecord) (h : ∀ p ∈ groups, p.1 ≠ r.group_index) :
    addRecord groups r = groups ++ [(r.group_index, [r])] := by
  have hany : ¬ (groups.any (fun p => p.1 == r.group_index) = true) := by
    simp only [List.any_eq_true, beq_iff_eq, not_exists]
    intro p
    rintro ⟨hp, he⟩
    exact h p hp he
  rw [addRecord, if_neg hany]

theorem map_update_no_key (r : RelationRecord) (l : List (Nat × List RelationRecord))
    (h : ∀ p ∈ l, p.1 ≠ r.group_index) :
    l.map (fun p => if p.1 == r.group_index then (p.1, p.2 ++ [r]) else p) = l := by
  induction l with
  | nil => rfl
  | cons p l ih =>
    rw [List.map_cons, if_neg, ih (fun q hq => h q (List.mem_cons_of_mem p hq))]
    simp only [beq_iff_eq]
    exact h p (List.mem_cons_self p l)

theorem foldl_addRecord_entry :
    ∀ (rs : List RelationRecord) (pre post : List (Nat × List RelationRecord))
      (k : Nat) (cur : List RelationRecord),
      (∀ r ∈ rs, r.group_index = k) → (∀ p ∈ pre, p.1 ≠ k) → (∀ p ∈ post, p.1 ≠ k) →
      rs.foldl addRecord (pre ++ (k, cur) :: post) = pre ++ (k, cur ++ rs) :: post := by
  intro rs
  induction rs with
  | nil =>
    intro pre post k cur _ _ _
    simp
  | cons r rs ih =>
    intro pre post k cur hall hpre hpost
    have hk : r.group_index = k := hall r (List.mem_cons_self r rs)
    have hany : (pre ++ (k, cur) :: post).any (fun p => p.1 == r.group_index) = true := by
      simp only [List.any_eq_true]
      exact ⟨(k, cur), by simp, by simp [hk]⟩
    have hstep : addRecord (pre ++ (k, cur) :: post) r = pre ++ (k, cur ++ [r]) :: post := by
      rw [addRecord, if_pos hany, List.map_append, List.map_cons,
        map_update_no_key r pre (fun p hp => hk ▸ hpre p hp),
        map_update_no_key r post (fun p hp => hk ▸ hpost p hp),
        if_pos (by simp [hk])]
    rw [List.foldl_cons, hstep,
      ih pre post k (cur ++ [r]) (fun x hx => hall x (List.mem_cons_of_mem r hx)) hpre hpost,
      List.append_assoc, List.singleton_append]

theorem foldl_addRecord_fresh (rs : List RelationRecord)
    (acc : List (Nat × List RelationRecord)) (k : Nat) (hne : rs ≠ [])
    (hall : ∀ r ∈ rs, r.group_index = k) (hacc : ∀ p ∈ acc, p.1 ≠ k) :
    rs.foldl addRecord acc = acc ++ [(k, rs)] := by
  match rs, hne with
  | r :: rs', _ =>
    have hk : r.group_index = k := hall r (List.mem_cons_self r rs')
    rw [List.foldl_cons, addRecord_of_not_mem acc r (fun p hp => hk ▸ hacc p hp), hk]
    have hcons : acc ++ [(k, [r])] = acc ++ (k, [r]) :: [] := rfl
    rw [hcons, foldl_addRecord_entry rs' acc [] k [r]
      (fun x hx => hall x (List.mem_cons_of_mem r hx)) hacc (by intro p hp; cases hp)]
    rfl

theorem foldl_encodeFrom :
    ∀ (gs : List (List String)) (n : Nat) (acc : List (Nat × List RelationRecord)),
      (∀ g ∈ gs, g ≠ []) → (∀ p ∈ acc, p.1 < n) →
      (encodeFrom n gs).foldl addRecord acc = acc ++ expectedGroups n gs := by
  intro gs
  induction gs with
  | nil =>
    intro n acc _ _
    simp [encodeFrom, expectedGroups]
  | cons g gs ih =>
    intro n acc hgs hacc
    rw [encodeFrom, List.foldl_append,
      foldl_addRecord_fresh (groupBlock n g) acc n
        (groupBlock_ne_nil (hgs g (List.mem_cons_self g gs)))
        (fun r hr => group_index_of_mem_groupBlock hr)
        (fun p hp => Nat.ne_of_lt (hacc p hp))]
    have hacc' : ∀ p ∈ acc ++ [(n, groupBlock n g)], p.1 < n + 1 := by
      intro p hp
      rcases List.mem_append.mp hp with hp | hp
      · exact Nat.lt_succ_of_lt (hacc p hp)
      · rw [List.mem_singleton.mp hp]
        exact Nat.lt_succ_self n
    rw [ih (n + 1) (acc ++ [(n, groupBlock n g)])
      (fun x hx => hgs x (List.mem_cons_of_mem g hx)) hacc']
    rw [expectedGroups, List.append_assoc, List.singleton_append]

theorem relationGroups_encodeList (gs : List (List String)) (h : ∀ g ∈ gs, g ≠ []) :
    relationGroups (encodeList gs) = expectedGroups 0 gs := by
  rw [relationGroups, encodeList_eq_encodeFrom,
    foldl_encodeFrom gs 0 [] h (by intro p hp; cases hp)]
  rfl

theorem insertSorted_of_le (x : Nat × List RelationRecord)
    (l : List (Nat × List RelationRecord)) (h : ∀ y ∈ l, x.1 ≤ y.1) :
    insertSorted x l = x :: l := by
  cases l with
  | nil => rfl
  | cons y ys => rw [insertSorted, if_pos (h y (List.mem_cons_self y ys))]

theorem sortByKey_expectedGroups :
    ∀ (gs : List (List String)) (n : Nat),
      sortByKey (expectedGroups n gs) = expectedGroups n gs := by
  intro gs
  induction gs with
  | nil => intro n; rfl
  | cons g gs ih =>
    intro n
    rw [expectedGroups, sortByKey, List.foldr_cons]
    have : List.foldr insertSorted [] (expectedGroups (n + 1) gs) = expectedGroups (n + 1) gs :=
      ih (n + 1)
    rw [this]
    exact insertSorted_of_le _ _
      (fun y hy => Nat.le_of_succ_le (key_le_of_mem_expectedGroups gs (n + 1) y hy))

theorem map_expectedGroups :
    ∀ (gs : List (List String)) (n : Nat),
      (expectedGroups n gs).map (fun p => p.2.map (fun r => r.image_chunk_id)) = gs := by
  intro gs
  induction gs with
  | nil => intro n; rfl
  | cons g gs ih =>
    intro n
    rw [expectedGroups, List.map_cons, groupBlock_ids, ih (n + 1)]

theorem browserDecode_encodeList (gs : List (List String)) (h : ∀ g ∈ gs, g ≠ []) :
    browserDecode (encodeList gs) = gs := by
  rw [browserDecode, browserGroups, relationGroups_encodeList gs h,
    sortByKey_expectedGroups, map_expectedGroups]

theorem encodeList_ne_nil (gs : List (List String)) (h1 : gs ≠ [])
    (h2 : ∀ g ∈ gs, g ≠ []) : encodeList gs ≠ [] := by
  match gs, h1 with
  | g :: gs', _ =>
    rw [encodeList_eq_encodeFrom, encodeFrom]
    simp only [ne_eq, List.append_eq_nil, not_and]
    intro hb
    exact absurd hb (groupBlock_ne_nil (h2 g (List.mem_cons_self g gs')))

theorem decode_of_ne_nil (recs : List RelationRecord) (h : recs ≠ []) :
    decode recs = .ok (browserDecode recs) := by
  match recs, h with
  | r :: rs, _ => rfl

theorem totalRefs_pos (gs : List (List String)) (h1 : gs ≠ [])
    (h2 : ∀ g ∈ gs, g ≠ []) : totalRefs gs ≠ 0 := by
  match gs, h1 with
  | g :: gs', _ =>
    intro hz
    rw [totalRefs, List.sum_eq_zero_iff] at hz
    have : g.length = 0 := hz g.length (List.mem_map_of_mem List.length (List.mem_cons_self g gs'))
    exact h2 g (List.mem_cons_self g gs') (List.length_eq_zero.mp this)

theorem encode_ok (e : GroundTruthExpression) (h1 : toGroups e ≠ [])
    (h2 : ∀ g ∈ toGroups e, g ≠ []) : encode e = .ok (encodeList (toGroups e)) := by
  rw [encode]
  have hany : (toGroups e).any List.isEmpty = false := by
    simp only [List.any_eq_false]
    intro g hg
    rw [List.isEmpty_iff]
    exact h2 g hg
  have htot : (totalRefs (toGroups e) == 0) = false :=
    beq_eq_false_iff_ne.mpr (totalRefs_pos (toGroups e) h1 h2)
  rw [hany, htot]
  rfl

theorem mem_insertSorted (x a : Nat × List RelationRecord) :
    ∀ l : List (Nat × List RelationRecord), a ∈ insertSorted x l ↔ a = x ∨ a ∈ l := by
  intro l
  induction l with
  | nil => simp [insertSorted]
  | cons y ys ih =>
    rw [insertSorted]
    split
    · simp [List.mem_cons]
    · simp only [List.mem_cons, ih]
      tauto

theorem mem_sortByKey (a : Nat × List RelationRecord) :
    ∀ l : List (Nat × List RelationRecord), a ∈ sortByKey l ↔ a ∈ l := by
  intro l
  induction l with
  | nil => simp [sortByKey]
  | cons y ys ih =>
    rw [sortByKey, List.foldr_cons]
    have : List.foldr insertSorted [] ys = sortByKey ys := rfl
    rw [this, mem_insertSorted, ih, List.mem_cons]

theorem pairwise_insertSorted (x : Nat × List RelationRecord)
    (l : List (Nat × List RelationRecord)) (h : l.Pairwise (fun a b => a.1 ≤ b.1)) :
    (insertSorted x l).Pairwise (fun a b => a.1 ≤ b.1) := by
  induction l with
  | nil => simp [insertSorted]
  | cons y ys ih =>
    rw [insertSorted]
    have hy := List.pairwise_cons.mp h
    rcases le_or_lt x.1 y.1 with hle | hlt
    · rw [if_pos hle]
      refine List.pairwise_cons.mpr ⟨?_, h⟩
      intro b hb
      rcases List.mem_cons.mp hb with rfl | hb
      · exact hle
      · exact le_trans hle (hy.1 b hb)
    · rw [if_neg (not_le.mpr hlt)]
      refine List.pairwise_cons.mpr ⟨?_, ih hy.2⟩
      intro b hb
      rcases (mem_insertSorted x b ys).mp hb with rfl | hb
      · exact le_of_lt hlt
      · exact hy.1 b hb

theorem sortByKey_pairwise (l : List (Nat × List RelationRecord)) :
    (sortByKey l).Pairwise (fun a b => a.1 ≤ b.1) := by
  induction l with
  | nil => simp [sortByKey]
  | cons y ys ih =>
    rw [sortByKey, List.foldr_cons]
    exact pairwise_insertSorted y (List.foldr insertSorted [] ys) ih

theorem key_addRecord_update (r : RelationRecord) (q : Nat × List RelationRecord) :
    ((if q.1 == r.group_index then (q.1, q.2 ++ [r]) else q) : Nat × List RelationRecord).1
      = q.1 := by
  split <;> rfl

theorem addRecord_inv_step (acc : List (Nat × List RelationRecord))
    (done : List RelationRecord) (r : RelationRecord)
    (h1 : ∀ p ∈ acc, p.2 = done.filter (fun s => s.group_index == p.1))
    (h2 : ∀ s ∈ done, ∃ p ∈ acc, p.1 = s.group_index) :
    (∀ p ∈ addRecord acc r, p.2 = (done ++ [r]).filter (fun s => s.group_index == p.1)) ∧
    (∀ s ∈ done ++ [r], ∃ p ∈ addRecord acc r, p.1 = s.group_index) := by
  by_cases hc : acc.any (fun p => p.1 == r.group_index) = true
  · rw [addRecord, if_pos hc]
    constructor
    · intro p hp
      obtain ⟨q, hq, hfq⟩ := List.mem_map.mp hp
      by_cases hqr : q.1 = r.group_index
      · rw [if_pos (beq_iff_eq.mpr hqr)] at hfq
        rw [← hfq, List.filter_append, ← h1 q hq, List.filter_singleton,
          show (r.group_index == q.1) = true from beq_iff_eq.mpr hqr.symm]
        rfl
      · rw [if_neg (fun hb => hqr (beq_iff_eq.mp hb))] at hfq
        rw [← hfq, List.filter_append, ← h1 q hq, List.filter_singleton,
          show (r.group_index == q.1) = false from beq_eq_false_iff_ne.mpr
            (fun he => hqr he.symm)]
        simp
    · intro s hs
      rcases List.mem_append.mp hs with hs | hs
      · obtain ⟨p, hp, hps⟩ := h2 s hs
        exact ⟨(if p.1 == r.group_index then (p.1, p.2 ++ [r]) else p),
          List.mem_map_of_mem _ hp, by rw [key_addRecord_update]; exact hps⟩
      · rw [List.mem_singleton.mp hs]
        obtain ⟨q, hq, hqk⟩ := List.any_eq_true.mp hc
        exact ⟨(if q.1 == r.group_index then (q.1, q.2 ++ [r]) else q),
          List.mem_map_of_mem _ hq, by rw [key_addRecord_update]; exact beq_iff_eq.mp hqk⟩
  · have hnot : ∀ q ∈ acc, q.1 ≠ r.group_index := by
      intro q hq he
      exact hc (List.any_eq_true.mpr ⟨q, hq, beq_iff_eq.mpr he⟩)
    rw [addRecord, if_neg hc]
    constructor
    · intro p hp
      rcases List.mem_append.mp hp with hp | hp
      · rw [List.filter_append, ← h1 p hp, List.filter_singleton,
          show (r.group_index == p.1) = false from beq_eq_false_iff_ne.mpr
            (fun he => hnot p hp he.symm)]
        simp
      · rw [List.mem_singleton.mp hp]
        have hdone : done.filter (fun s => s.group_index == r.group_index) = [] := by
          rw [List.filter_eq_nil_iff]
          intro s hs hbeq
          obtain ⟨q, hq, hqk⟩ := h2 s hs
          exact hnot q hq (hqk.trans (beq_iff_eq.mp hbeq))
        rw [List.filter_append, hdone, List.filter_singleton,
          show (r.group_index == r.group_index) = true from beq_iff_eq.mpr rfl]
        rfl
    · intro s hs
      rcases List.mem_append.mp hs with hs | hs
      · obtain ⟨p, hp, hps⟩ := h2 s hs
        exact ⟨p, List.mem_append_left _ hp, hps⟩
      · rw [List.mem_singleton.mp hs]
        exact ⟨(r.group_index, [r]), List.mem_append_right _ (List.mem_singleton_self _), rfl⟩

theorem foldl_addRecord_inv :
    ∀ (rest : List RelationRecord) (acc : List (Nat × List RelationRecord))
      (done : List RelationRecord),
      (∀ p ∈ acc, p.2 = done.filter (fun s => s.group_index == p.1)) →
      (∀ s ∈ done, ∃ p ∈ acc, p.1 = s.group_index) →
      (∀ p ∈ rest.foldl addRecord acc,
        p.2 = (done ++ rest).filter (fun s => s.group_index == p.1)) ∧
      (∀ s ∈ done ++ rest, ∃ p ∈ rest.foldl addRecord acc, p.1 = s.group_index) := by
  intro rest
  induction rest with
  | nil =>
    intro acc done h1 h2
    rw [List.foldl_nil, List.append_nil]
    exact ⟨h1, h2⟩
  | cons r rest ih =>
    intro acc done h1 h2
    have hstep := addRecord_inv_step acc done r h1 h2
    have := ih (addRecord acc r) (done ++ [r]) hstep.1 hstep.2
    rw [List.foldl_cons]
    constructor
    · intro p hp
      have hres := this.1 p hp
      rwa [List.append_assoc, List.singleton_append] at hres
    · intro s hs
      apply this.2
      rw [List.append_assoc, List.singleton_append]
      exact hs

theorem relationGroups_filter (recs : List RelationRecord) :
    (∀ p ∈ relationGroups recs,
      p.2 = recs.filter (fun s => s.group_index == p.1)) ∧
    (∀ s ∈ recs, ∃ p ∈ relationGroups recs, p.1 = s.group_index) := by
  have h := foldl_addRecord_inv recs [] []
    (by intro p hp; cases hp) (by intro s hs; cases hs)
  rw [List.nil_append] at h
  exact h

/-- C1.  Round-trip of the ordered form: for every valid ground-truth
expression (at least one group, every group non-empty), encoding it and
decoding the produced records recovers exactly the expression's ordered group
list — same group count, same per-group item counts, same group order, same
within-group item order. -/
theorem round_trip_ordered_form (e : GroundTruthExpression)
    (h1 : toGroups e ≠ []) (h2 : ∀ g ∈ toGroups e, g ≠ []) :
    ∃ recs, encode e = .ok recs ∧ decode recs = .ok (toGroups e) := by
  refine ⟨encodeList (toGroups e), encode_ok e h1 h2, ?_⟩
  rw [decode_of_ne_nil _ (encodeList_ne_nil _ h1 h2), browserDecode_encodeList _ h2]

/-- Witness for C1 at a concrete two-group expression. -/
theorem round_trip_ordered_form_witness :
    ∃ recs, encode (.andOf [["a"], ["b", "c"]]) = .ok recs ∧
      decode recs = .ok (toGroups (.andOf [["a"], ["b", "c"]])) :=
  round_trip_ordered_form (.andOf [["a"], ["b", "c"]]) (by decide) (by decide)

/-- C2, counterexample.  The claim says decode sorts the records within each
partition by `group_order`; the code keeps them in storage-return order
instead: for the records `(0,1,"b"), (0,0,"a")` (one group, arriving out of
`group_order` order) the decoded group is `["b", "a"]`, not the
`group_order`-sorted `["a", "b"]`. -/
theorem decode_does_not_sort_within_groups :
    decode [⟨0, 1, "b"⟩, ⟨0, 0, "a"⟩] = .ok [["b", "a"]] ∧
    decode [⟨0, 1, "b"⟩, ⟨0, 0, "a"⟩] ≠ .ok [["a", "b"]] := by
  constructor
  · rfl
  · intro h
    rw [show decode [⟨0, 1, "b"⟩, ⟨0, 0, "a"⟩] = .ok [["b", "a"]] from rfl] at h
    exact absurd (Except.ok.inj h) (by decide)

/-- C2, amended.  Decode partitions the records by `group_index` and sorts the
partitions by `group_index`, but within each partition it keeps the records in
the order storage returned them (it does not sort by `group_order`): each
displayed group equals the input filtered to its `group_index` (so within-group
order is input order), the displayed groups are sorted by `group_index`, and
every record's `group_index` is represented. -/
theorem decode_partition_amended (recs : List RelationRecord) :
    (∀ p ∈ browserGroups recs, p.2 = recs.filter (fun s => s.group_index == p.1)) ∧
    (browserGroups recs).Pairwise (fun a b => a.1 ≤ b.1) ∧
    (∀ s ∈ recs, ∃ p ∈ browserGroups recs, p.1 = s.group_index) := by
  refine ⟨?_, sortByKey_pairwise _, ?_⟩
  · intro p hp
    exact (relationGroups_filter recs).1 p ((mem_sortByKey p _).mp hp)
  · intro s hs
    obtain ⟨p, hp, hpk⟩ := (relationGroups_filter recs).2 s hs
    exact ⟨p, (mem_sortByKey p _).mpr hp, hpk⟩

/-- C3, counterexample.  The claim says decode fails with `MalformedRecords`
on a `group_order` gap; the code performs no contiguity check: the records
`(0,0,"a"), (0,2,"b")` (gap at order 1, the spec's own example) decode
successfully to one group `["a", "b"]`. -/
theorem decode_accepts_group_order_gap :
    decode [⟨0, 0, "a"⟩, ⟨0, 2, "b"⟩] = .ok [["a", "b"]] ∧
    decode [⟨0, 0, "a"⟩, ⟨0, 2, "b"⟩] ≠ .error DecodeError.malformedRecords := by
  constructor
  · rfl
  · intro h
    rw [show decode [⟨0, 0, "a"⟩, ⟨0, 2, "b"⟩] = .ok [["a", "b"]] from rfl] at h
    exact Except.noConfusion h

/-- C3, amended.  Decode never fails with `MalformedRecords`: the code
performs no contiguity validation of `group_order` within a group or of
`group_index` across groups — any record collection is grouped as-is. -/
theorem decode_never_malformed (recs : List RelationRecord) :
    decode recs ≠ .error DecodeError.malformedRecords := by
  cases recs with
  | nil =>
    intro h
    exact DecodeError.noConfusion (Except.error.inj h)
  | cons r rs =>
    intro h
    exact Except.noConfusion h

/-- Witness for the amended C2 at a concrete out-of-order collection: the
single displayed group holds the records in input order. -/
theorem decode_partition_amended_witness :
    ((0 : Nat), ([⟨0, 1, "b"⟩, ⟨0, 0, "a"⟩] : List RelationRecord)).2 =
      ([⟨0, 1, "b"⟩, ⟨0, 0, "a"⟩] : List RelationRecord).filter
        (fun s => s.group_index == ((0 : Nat), ([⟨0, 1, "b"⟩, ⟨0, 0, "a"⟩] :
          List RelationRecord)).1) :=
  (decode_partition_amended [⟨0, 1, "b"⟩, ⟨0, 0, "a"⟩]).1
    (0, [⟨0, 1, "b"⟩, ⟨0, 0, "a"⟩]) (by decide)

/-- Witness for the amended C3 at the spec's gap example. -/
theorem decode_never_malformed_witness :
    decode [⟨0, 0, "a"⟩, ⟨0, 2, "b"⟩] ≠ .error DecodeError.malformedRecords :=
  decode_never_malformed [⟨0, 0, "a"⟩, ⟨0, 2, "b"⟩]

/-- C6.  The empty record collection is routed to the distinguished
`EmptyGroundTruth` outcome, which differs from the `MalformedRecords` outcome,
and neither classifier produces any of the three classes for it: the Recent
Queries block yields `relation_type = None` and the Statistics counter skips
the query. -/
theorem empty_records_outcome :
    decode [] = .error DecodeError.emptyGroundTruth ∧
    DecodeError.emptyGroundTruth ≠ DecodeError.malformedRecords ∧
    relationType [] = none ∧
    statBucket [] = none :=
  ⟨rfl, by decide, rfl, rfl⟩

/-- Witness for C6: the positive components at the empty collection. -/
theorem empty_records_outcome_witness :
    decode [] = .error DecodeError.emptyGroundTruth ∧ relationType [] = none :=
  ⟨empty_records_outcome.1, empty_records_outcome.2.2.1⟩

theorem numGroups_pos (recs : List RelationRecord) (h : recs ≠ []) :
    0 < numGroups recs := by
  rw [numGroups]
  refine List.length_pos.mpr ?_
  intro hnil
  rw [List.dedup_eq_nil, List.map_eq_nil_iff] at hnil
  exact h hnil

/-- C5.  Derived classification on a non-empty record set: `Single` exactly
when there is one group with one item, `OR` exactly when there is one group
with more than one item, `AND (multi-hop)` exactly when there is more than one
group irrespective of group sizes.  (With a single distinct `group_index` the
total record count is that group's item count.) -/
theorem classification_spec (recs : List RelationRecord) (h : recs ≠ []) :
    (relationType recs = some "Single" ↔ numGroups recs = 1 ∧ recs.length = 1) ∧
    (relationType recs = some "OR" ↔ numGroups recs = 1 ∧ 1 < recs.length) ∧
    (relationType recs = some "AND (multi-hop)" ↔ 1 < numGroups recs) := by
  have hg : 0 < numGroups recs := numGroups_pos recs h
  have hl : 0 < recs.length := List.length_pos.mpr h
  rw [relationType]
  split_ifs with h1 h2 h3
  · exact ⟨⟨fun hs => absurd (Option.some.inj hs) (by decide),
        fun hc => absurd hc.1 (by omega)⟩,
      ⟨fun hs => absurd (Option.some.inj hs) (by decide),
        fun hc => absurd hc.1 (by omega)⟩,
      ⟨fun _ => h1, fun _ => rfl⟩⟩
  · exact ⟨⟨fun hs => absurd (Option.some.inj hs) (by decide),
        fun hc => absurd hc.2 (by omega)⟩,
      ⟨fun _ => ⟨by omega, h2⟩, fun _ => rfl⟩,
      ⟨fun hs => absurd (Option.some.inj hs) (by decide), fun hc => absurd hc h1⟩⟩
  · exact ⟨⟨fun _ => ⟨by omega, h3⟩, fun _ => rfl⟩,
      ⟨fun hs => absurd (Option.some.inj hs) (by decide),
        fun hc => absurd hc.2 (by omega)⟩,
      ⟨fun hs => absurd (Option.some.inj hs) (by decide), fun hc => absurd hc h1⟩⟩
  · exact absurd hl (by omega)

/-- Witness for C5 at the one-record collection. -/
theorem classification_spec_witness :
    (relationType [⟨0, 0, "a"⟩] = some "Single" ↔
      numGroups [⟨0, 0, "a"⟩] = 1 ∧ ([⟨0, 0, "a"⟩] : List RelationRecord).length = 1) ∧
    (relationType [⟨0, 0, "a"⟩] = some "OR" ↔
      numGroups [⟨0, 0, "a"⟩] = 1 ∧ 1 < ([⟨0, 0, "a"⟩] : List RelationRecord).length) ∧
    (relationType [⟨0, 0, "a"⟩] = some "AND (multi-hop)" ↔ 1 < numGroups [⟨0, 0, "a"⟩]) :=
  classification_spec [⟨0, 0, "a"⟩] (by decide)

/-- C9.  The Recent-Queries classifier and the Statistics bucket counter agree
on every non-empty record collection: `AND (multi-hop)` ↔ `multi_hop`,
`OR` ↔ `or_queries`, `Single` ↔ `single_hop`. -/
theorem classifiers_agree (recs : List RelationRecord) (h : recs ≠ []) :
    (relationType recs = some "AND (multi-hop)" ↔
      statBucket recs = some QueryClass.multiHop) ∧
    (relationType recs = some "OR" ↔ statBucket recs = some QueryClass.orQueries) ∧
    (relationType recs = some "Single" ↔ statBucket recs = some QueryClass.singleHop) := by
  have hl : 0 < recs.length := List.length_pos.mpr h
  have hE : recs.isEmpty = false := List.isEmpty_eq_false.mpr h
  rw [relationType, statBucket, hE]
  simp only [Bool.false_eq_true, if_false]
  split_ifs with h1 h2 h3
  · exact ⟨by simp, by simp, by simp⟩
  · exact ⟨by simp, by simp, by simp⟩
  · exact ⟨by simp, by simp, by simp⟩
  · exact absurd hl (by omega)

/-- Witness for C9 at a two-group collection. -/
theorem classifiers_agree_witness :
    (relationType [⟨0, 0, "a"⟩, ⟨1, 0, "b"⟩] = some "AND (multi-hop)" ↔
      statBucket [⟨0, 0, "a"⟩, ⟨1, 0, "b"⟩] = some QueryClass.multiHop) ∧
    (relationType [⟨0, 0, "a"⟩, ⟨1, 0, "b"⟩] = some "OR" ↔
      statBucket [⟨0, 0, "a"⟩, ⟨1, 0, "b"⟩] = some QueryClass.orQueries) ∧
    (relationType [⟨0, 0, "a"⟩, ⟨1, 0, "b"⟩] = some "Single" ↔
      statBucket [⟨0, 0, "a"⟩, ⟨1, 0, "b"⟩] = some QueryClass.singleHop) :=
  classifiers_agree [⟨0, 0, "a"⟩, ⟨1, 0, "b"⟩] (by decide)

theorem mem_groupBlock {n : Nat} {g : List String} {r : RelationRecord} :
    r ∈ groupBlock n g ↔
      r.group_index = n ∧ ∃ ho : r.group_order < g.length,
        g[r.group_order] = r.image_chunk_id := by
  rw [groupBlock]
  constructor
  · intro hr
    obtain ⟨i, hi, hr⟩ := List.mem_iff_getElem.mp hr
    have hig : i < g.length := by simpa using hi
    rw [List.getElem_map, List.getElem_enum] at hr
    rw [← hr]
    exact ⟨rfl, hig, rfl⟩
  · rcases r with ⟨gi, go, id⟩
    rintro ⟨hgi, ho, hid⟩
    apply List.mem_iff_getElem.mpr
    refine ⟨go, by simpa using ho, ?_⟩
    rw [List.getElem_map, List.getElem_enum]
    simp only [RelationRecord.mk.injEq]
    exact ⟨hgi.symm, trivial, hid⟩

theorem mem_encodeFrom :
    ∀ (gs : List (List String)) (n : Nat) (r : RelationRecord),
      r ∈ encodeFrom n gs ↔
        ∃ j : Nat, ∃ hj : j < gs.length, r.group_index = n + j ∧
          ∃ ho : r.group_order < gs[j].length,
            gs[j][r.group_order] = r.image_chunk_id := by
  intro gs
  induction gs with
  | nil =>
    intro n r
    simp [encodeFrom]
  | cons g gs ih =>
    intro n r
    rw [encodeFrom, List.mem_append, mem_groupBlock, ih (n + 1)]
    constructor
    · rintro (⟨hgi, ho, hid⟩ | ⟨j, hj, hgi, ho, hid⟩)
      · exact ⟨0, by simp, by simpa using hgi, by simpa using ho, by simpa using hid⟩
      · exact ⟨j + 1, by simpa using hj, by omega, by simpa using ho, by simpa using hid⟩
    · rintro ⟨j, hj, hgi, ho, hid⟩
      cases j with
      | zero =>
        exact Or.inl ⟨by simpa using hgi, by simpa using ho, by simpa using hid⟩
      | succ j =>
        exact Or.inr ⟨j, by simpa using hj, by omega, by simpa using ho, by simpa using hid⟩

theorem length_encodeFrom : ∀ (gs : List (List String)) (n : Nat),
    (encodeFrom n gs).length = totalRefs gs := by
  intro gs
  induction gs with
  | nil => intro n; rfl
  | cons g gs ih =>
    intro n
    rw [encodeFrom, List.length_append, ih (n + 1)]
    simp [groupBlock, totalRefs]

/-- C4.  Encode emits exactly the records the spec prescribes.  `Single(ref)`
yields the one record `(0, 0, ref)`; `Or(refs)` yields one record per ref with
`group_index = 0` and `group_order` the ref's 0-based input position; for
`And(groups)` the emitted collection has one record per reference (its count is
the total reference count) and contains a record exactly when its
`group_index`/`group_order` name an input position holding its
`image_chunk_id`, preserving both orders. -/
theorem encode_record_mapping :
    (∀ ref : String, encode (.single ref) = .ok [⟨0, 0, ref⟩]) ∧
    (∀ refs : List String, refs ≠ [] →
      encode (.orOf refs) = .ok (refs.enum.map (fun q => ⟨0, q.1, q.2⟩))) ∧
    (∀ groups : List (List String), groups ≠ [] → (∀ g ∈ groups, g ≠ []) →
      ∃ recs, encode (.andOf groups) = .ok recs ∧
        recs.length = totalRefs groups ∧
        ∀ r : RelationRecord, r ∈ recs ↔
          ∃ hgi : r.group_index < groups.length,
            ∃ ho : r.group_order < groups[r.group_index].length,
              groups[r.group_index][r.group_order] = r.image_chunk_id) := by
  refine ⟨fun ref => rfl, ?_, ?_⟩
  · intro refs hne
    rw [encode_ok (.orOf refs) (by simp [toGroups])
      (by intro g hg; rw [toGroups, List.mem_singleton] at hg; rwa [hg])]
    rw [show toGroups (.orOf refs) = [refs] from rfl, encodeList_eq_encodeFrom]
    rw [show encodeFrom 0 [refs] = groupBlock 0 refs ++ encodeFrom 1 [] from rfl]
    rw [show encodeFrom 1 [] = [] from rfl, List.append_nil, groupBlock]
  · intro groups hne hgs
    refine ⟨encodeList groups, ?_, ?_, ?_⟩
    · exact encode_ok (.andOf groups) hne hgs
    · rw [encodeList_eq_encodeFrom]
      exact length_encodeFrom groups 0
    · intro r
      rw [encodeList_eq_encodeFrom, mem_encodeFrom groups 0 r]
      constructor
      · rintro ⟨j, hj, hgi, ho, hid⟩
        have hjr : j = r.group_index := by omega
        subst hjr
        exact ⟨hj, ho, hid⟩
      · rintro ⟨hgi, ho, hid⟩
        exact ⟨r.group_index, hgi, by omega, ho, hid⟩

/-- Witness for C4 at a concrete two-group expression. -/
theorem encode_record_mapping_witness :
    encode (.orOf ["x", "y"]) = .ok ((["x", "y"] : List String).enum.map
      (fun q => ⟨0, q.1, q.2⟩)) ∧
    ∃ recs, encode (.andOf [["a"], ["b", "c"]]) = .ok recs ∧
      recs.length = totalRefs [["a"], ["b", "c"]] := by
  refine ⟨encode_record_mapping.2.1 ["x", "y"] (by decide), ?_⟩
  obtain ⟨recs, h1, h2, _⟩ :=
    encode_record_mapping.2.2 [["a"], ["b", "c"]] (by decide) (by decide)
  exact ⟨recs, h1, h2⟩

/-- C7.  Encode fails with `InvalidExpression` exactly when some group of the
expression is empty or the expression holds zero evidence references; every
well-formed expression encodes without error. -/
theorem encode_invalid_iff (e : GroundTruthExpression) :
    (encode e = .error EncodeError.invalidExpression ↔
      (∃ g ∈ toGroups e, g = []) ∨ totalRefs (toGroups e) = 0) ∧
    ((∀ g ∈ toGroups e, g ≠ []) → toGroups e ≠ [] → ∃ recs, encode e = .ok recs) := by
  constructor
  · rw [encode]
    by_cases hc : ((toGroups e).any List.isEmpty || totalRefs (toGroups e) == 0) = true
    · rw [if_pos hc]
      constructor
      · intro _
        rcases Bool.or_eq_true_iff.mp hc with hc | hc
        · obtain ⟨g, hg, hge⟩ := List.any_eq_true.mp hc
          exact Or.inl ⟨g, hg, List.isEmpty_iff.mp hge⟩
        · exact Or.inr (beq_iff_eq.mp hc)
      · intro _
        rfl
    · rw [if_neg hc]
      constructor
      · intro hcontra
        exact Except.noConfusion hcontra
      · intro hdisj
        exfalso
        apply hc
        rcases hdisj with ⟨g, hg, hge⟩ | htot
        · exact Bool.or_eq_true_iff.mpr (Or.inl
            (List.any_eq_true.mpr ⟨g, hg, List.isEmpty_iff.mpr hge⟩))
        · exact Bool.or_eq_true_iff.mpr (Or.inr (beq_iff_eq.mpr htot))
  · intro hall hne
    exact ⟨encodeList (toGroups e), encode_ok e hne hall⟩

/-- Witness for C7: the spec's `And([[]])` example fails, a well-formed
expression succeeds. -/
theorem encode_invalid_iff_witness :
    encode (.andOf [[]]) = .error EncodeError.invalidExpression ∧
    ∃ recs, encode (.andOf [["a"], ["b"]]) = .ok recs :=
  ⟨(encode_invalid_iff (.andOf [[]])).1.mpr (Or.inl ⟨[], by decide, rfl⟩),
    (encode_invalid_iff (.andOf [["a"], ["b"]])).2 (by decide) (by decide)⟩

/-- C8.  When exactly one image chunk is selected,
`create_query_with_retrieval_gt` builds the `Single` form from that id for
both `relation_type` values (the relation type does not influence the stored
records), and the resulting record set classifies as single-hop under both
classifiers. -/
theorem single_selection_special_case (ids : List String) (h : ids.length = 1) :
    (∀ rt : String, buildGt ids rt = .single ids.headI) ∧
    buildGt ids "or" = buildGt ids "and" ∧
    ∃ recs, encode (buildGt ids "and") = .ok recs ∧
      relationType recs = some "Single" ∧ statBucket recs = some QueryClass.singleHop := by
  have hb : ∀ rt : String, buildGt ids rt = .single ids.headI := by
    intro rt
    rw [buildGt, if_pos h]
  refine ⟨hb, by rw [hb "or", hb "and"], ?_⟩
  rw [hb "and"]
  exact ⟨[⟨0, 0, ids.headI⟩], rfl, rfl, rfl⟩

/-- Witness for C8 at the one-element selection. -/
theorem single_selection_special_case_witness :
    buildGt ["a"] "or" = buildGt ["a"] "and" ∧
    ∃ recs, encode (buildGt ["a"] "and") = .ok recs ∧
      relationType recs = some "Single" ∧ statBucket recs = some QueryClass.singleHop :=
  (single_selection_special_case ["a"] (by decide)).2

/-- Python's `str`-whitespace class, the set of characters `str.strip()`
removes: `\t \n \x0b \x0c \r \x1c \x1d \x1e \x1f` and space, `\x85`, NBSP
(U+00A0), U+1680, U+2000–U+200A, U+2028, U+2029, U+202F, U+205F and the
ideographic space U+3000.  (Lean's `Char.isWhitespace` covers only
space/`\t`/`\r`/`\n` and would be an unfaithful model.) -/
def pyIsSpace (c : Char) : Bool :=
  (0x09 ≤ c.toNat && c.toNat ≤ 0x0d) || c.toNat = 0x20 ||
  (0x1c ≤ c.toNat && c.toNat ≤ 0x1f) || c.toNat = 0x85 || c.toNat = 0xa0 ||
  c.toNat = 0x1680 || (0x2000 ≤ c.toNat && c.toNat ≤ 0x200a) ||
  c.toNat = 0x2028 || c.toNat = 0x2029 || c.toNat = 0x202f || c.toNat = 0x205f ||
  c.toNat = 0x3000

/-- Python `str.strip()` modelled on the underlying character list: drop
Python-whitespace from both ends.  Used by `QueryFormData.is_valid`
(`components/query_form.py`, lines 25 and 39), which only tests emptiness of
the stripped string. -/
def pyStrip (s : String) : String :=
  ⟨((s.data.dropWhile pyIsSpace).reverse.dropWhile pyIsSpace).reverse⟩

example : pyStrip "  ab " = "ab" := by decide

example : pyStrip "　" = "" := by decide

example : pyStrip "\u000b\u000c \u0085" = "" := by decide

example : pyStrip " a " = "a" := by decide

/-- The query-form submission data (`components/query_form.py`, lines 8–15). -/
structure QueryFormData where
  query_text : String
  query_to_llm : Option String
  generation_gt : List String
  relation_type : String
  deriving Repr

/-- The index list
`[i for i, gt in enumerate(self.generation_gt) if not gt.strip()]`
(`components/query_form.py`, line 39), with `i` starting at the first
argument. -/
def blankIdxsFrom : Nat → List String → List Nat
  | _, [] => []
  | i, g :: gs => (if pyStrip g = "" then [i] else []) ++ blankIdxsFrom (i + 1) gs

/-- The error appended for blank generation-GT entries
(`components/query_form.py`, lines 40–41): one message naming the first blank
index, nothing when there is none. -/
def blankEntryError (l : List Nat) : List String :=
  match l with
  | [] => []
  | i :: _ => ["Generation GT entries cannot be empty (check entry " ++ toString (i + 1) ++ ")"]

/-- The error list built by `QueryFormData.is_valid`
(`components/query_form.py`, lines 23–41), in check order: required query
text, length bound, relation type, non-empty generation GT, no blank
generation-GT entry. -/
def QueryFormData.errorsList (d : QueryFormData) : List String :=
  (if d.query_text = "" ∨ pyStrip d.query_text = "" then ["Query text is required"] else []) ++
  (if 2000 < d.query_text.length then ["Query text must be less than 2000 characters"] else []) ++
  (if d.relation_type ≠ "or" ∧ d.relation_type ≠ "and" then ["Invalid relation type"] else []) ++
  (if d.generation_gt = [] then ["At least one Generation Ground Truth is required"] else []) ++
  blankEntryError (blankIdxsFrom 0 d.generation_gt)

/-- `QueryFormData.is_valid` (`components/query_form.py`, line 43):
`return len(errors) == 0, errors`. -/
def QueryFormData.is_valid (d : QueryFormData) : Bool × List String :=
  (d.errorsList.isEmpty, d.errorsList)

theorem if_list_eq_nil {c : Prop} [Decidable c] {msg : List String} (hm : msg ≠ []) :
    (if c then msg else []) = [] ↔ ¬c := by
  by_cases h : c
  · rw [if_pos h]
    exact iff_of_false hm (not_not_intro h)
  · rw [if_neg h]
    exact iff_of_true rfl h

theorem blankEntryError_eq_nil (l : List Nat) : blankEntryError l = [] ↔ l = [] := by
  cases l <;> simp [blankEntryError]

theorem blankIdxsFrom_eq_nil :
    ∀ (l : List String) (n : Nat),
      blankIdxsFrom n l = [] ↔ ∀ g ∈ l, pyStrip g ≠ "" := by
  intro l
  induction l with
  | nil =>
    intro n
    simp [blankIdxsFrom]
  | cons g gs ih =>
    intro n
    rw [blankIdxsFrom]
    by_cases hg : pyStrip g = ""
    · rw [if_pos hg]
      simp [hg]
    · rw [if_neg hg, List.nil_append, ih (n + 1)]
      simp [List.forall_mem_cons, hg]

/-- C10.  `is_valid` returns `(True, [])` exactly when the query text is
non-blank after stripping, at most 2000 characters long, the relation type is
`"or"` or `"and"`, the generation GT list is non-empty and has no blank
entry; the boolean always equals the error list being empty, and a `False`
verdict always carries at least one error message. -/
theorem is_valid_spec (d : QueryFormData) :
    (d.is_valid = (true, []) ↔
      (pyStrip d.query_text ≠ "" ∧ d.query_text.length ≤ 2000 ∧
        (d.relation_type = "or" ∨ d.relation_type = "and") ∧
        d.generation_gt ≠ [] ∧ ∀ g ∈ d.generation_gt, pyStrip g ≠ "")) ∧
    d.is_valid.1 = d.is_valid.2.isEmpty ∧
    (d.is_valid.1 = false → d.is_valid.2 ≠ []) := by
  have himp : d.query_text = "" → pyStrip d.query_text = "" := by
    intro h
    rw [h]
    rfl
  refine ⟨?_, rfl, ?_⟩
  · have hpair : d.is_valid = (true, []) ↔ d.errorsList = [] := by
      rw [QueryFormData.is_valid, Prod.mk.injEq]
      constructor
      · intro hp
        exact hp.2
      · intro he
        exact ⟨by rw [he]; rfl, he⟩
    rw [hpair, QueryFormData.errorsList, List.append_eq_nil, List.append_eq_nil,
      List.append_eq_nil, List.append_eq_nil,
      if_list_eq_nil (by decide), if_list_eq_nil (by decide),
      if_list_eq_nil (by decide), if_list_eq_nil (by decide),
      blankEntryError_eq_nil, blankIdxsFrom_eq_nil]
    constructor
    · rintro ⟨⟨⟨⟨h1, h2⟩, h3⟩, h4⟩, h5⟩
      refine ⟨fun he => h1 (Or.inr he), by omega, ?_, h4, h5⟩
      by_cases hor : d.relation_type = "or"
      · exact Or.inl hor
      · by_cases hand : d.relation_type = "and"
        · exact Or.inr hand
        · exact absurd ⟨hor, hand⟩ h3
    · rintro ⟨h1, h2, h3, h4, h5⟩
      refine ⟨⟨⟨⟨?_, by omega⟩, ?_⟩, h4⟩, h5⟩
      · rintro (he | he)
        · exact h1 (himp he)
        · exact h1 he
      · rintro ⟨hor, hand⟩
        rcases h3 with h3 | h3
        · exact hor h3
        · exact hand h3
  · intro hf he
    have hf' : d.errorsList.isEmpty = false := hf
    have he' : d.errorsList = [] := he
    rw [he'] at hf'
    exact absurd hf' (by decide)

/-- Witness for C10: an all-empty form is rejected with a non-empty error
list. -/
theorem is_valid_spec_witness :
    (⟨"", none, [], "or"⟩ : QueryFormData).is_valid.1 = false ∧
    (⟨"", none, [], "or"⟩ : QueryFormData).is_valid.2 ≠ [] :=
  ⟨by decide, (is_valid_spec ⟨"", none, [], "or"⟩).2.2 (by decide)⟩

example : browserDecode [⟨0, 0, "a"⟩, ⟨1, 0, "b"⟩, ⟨1, 1, "c"⟩] = [["a"], ["b", "c"]] := by
  decide

example : browserDecode [⟨1, 0, "b"⟩, ⟨0, 0, "a"⟩, ⟨1, 1, "c"⟩] = [["a"], ["b", "c"]] := by
  decide

example : browserDecode [⟨0, 1, "b"⟩, ⟨0, 0, "a"⟩] = [["b", "a"]] := by decide

example : relationType [⟨0, 0, "a"⟩, ⟨0, 1, "b"⟩] = some "OR" := by decide

example : statBucket [⟨0, 0, "a"⟩, ⟨1, 0, "b"⟩] = some .multiHop := by decide

end KoMMVQA
